import Mathlib

/-!
# TextScramble (src/script.js, lines 1-62)

A shallow embedding of the `TextScramble` class: the schedule built by
`setText`, the per-frame step `update`, and the host facilities the class
calls (`Math.random`, `requestAnimationFrame`, `cancelAnimationFrame`, the
promise resolver), followed by the properties of the text-scramble state
machine.

Modelling conventions
* A JavaScript string is the list of its UTF-16 code units (`JsString`).
* `Math.random()` is an oracle `rng : Nat → ℚ` read through the cursor kept in
  the state; the n-th call of an execution returns `rng n`.  A draw is
  meaningful when it lies in `[0, 1)` (`ValidDraws`).  Products and
  `Math.floor` are taken exactly, and `0.28` is the fraction `28 / 100`.
* The text read from `this.el.innerText` is an argument of `setText`: how the
  browser renders markup into text is not part of the class.
* `requestAnimationFrame` hands out fresh handles and appends them to the list
  of pending callbacks; `cancelAnimationFrame` removes a handle from that list;
  a frame tick runs the callbacks that were pending when the tick began.
* Each `new Promise` gets a fresh number; calling `this.resolve()` is recorded
  in the log `resolved`.
* `pieces`, `writes` and `resolved` are instrumentation: they record what the
  code did and never influence it.
-/

namespace TextScramble

/-- A JavaScript string: the sequence of its UTF-16 code units. -/
abbrev JsString := List Nat

/-- The code units of a string literal of the source (all literals are in the
basic multilingual plane, one code unit per character). -/
def lit (s : String) : JsString := s.toList.map Char.toNat

/-- The field `this.chars` set by the constructor (line 5). -/
def chars : JsString := lit "!<>-_\\/[]\x7b\x7d—=+*^?#________"

/-- The expression `s[i] || ''` (lines 16-17): the one-unit string at index `i`,
which is always truthy, or the empty string when `i` is out of range. -/
def charOrEmpty (s : JsString) (i : Nat) : JsString :=
  match s[i]? with
  | some c => [c]
  | none => []

/-- One record of `this.queue` (line 20); `char` is `undefined` until the first
filler glyph is stored (line 41). -/
structure Item where
  from_ : JsString
  to_ : JsString
  start : Int
  end_ : Int
  char : Option Nat
deriving DecidableEq

/-- The expression `Math.floor(r * 40)` for a draw `r` (lines 18-19). -/
def draw40 (r : ℚ) : Int := ⌊r * 40⌋

/-- The record pushed for position `i` (lines 16-20); `r1` and `r2` are the two
successive results of `Math.random()`. -/
def mkItem (oldText newText : JsString) (i : Nat) (r1 r2 : ℚ) : Item :=
  let start := draw40 r1
  { from_ := charOrEmpty oldText i
    to_ := charOrEmpty newText i
    start := start
    end_ := start + draw40 r2
    char := none }

/-- The loop of `setText` (lines 15-21): `n` iterations remain, the next index
is `i`, the next draw is number `cur`. -/
def buildQueue (rng : Nat → ℚ) (oldText newText : JsString) : Nat → Nat → Nat → List Item
  | 0, _, _ => []
  | n + 1, i, cur =>
    mkItem oldText newText i (rng cur) (rng (cur + 1))
      :: buildQueue rng oldText newText n (i + 1) (cur + 2)

/-- The method `randomChar` (lines 59-61) on the draw `r`: indexing outside the
string yields `undefined` (`none`). -/
def randomChar (r : ℚ) : Option Nat :=
  let k : Int := ⌊r * (chars.length : ℚ)⌋
  if 0 ≤ k then chars[k.toNat]? else none

/-- The template literal of line 43; an `undefined` glyph is interpolated as
the text `undefined`. -/
def dud (char : Option Nat) : JsString :=
  lit "<span class=\"dud\">"
    ++ (match char with
        | some c => [c]
        | none => lit "undefined")
    ++ lit "</span>"

/-- What one iteration of the loop of `update` produces: the text appended to
`output`, whether `complete` was incremented, the record as left in the queue,
and the number of the next draw. -/
structure Body where
  piece : JsString
  done : Bool
  item : Item
  cursor : Nat

/-- The body of the loop of `update` (lines 34-46) at frame `frame`. -/
def updateItem (rng : Nat → ℚ) (frame : Nat) (it : Item) (cur : Nat) : Body :=
  if it.end_ ≤ (frame : Int) then
    { piece := it.to_, done := true, item := it, cursor := cur }
  else if it.start ≤ (frame : Int) then
    match it.char with
    | none =>
      let c := randomChar (rng cur)
      { piece := dud c, done := false, item := { it with char := c }, cursor := cur + 1 }
    | some ch =>
      if rng cur < 28 / 100 then
        let c := randomChar (rng (cur + 1))
        { piece := dud c, done := false, item := { it with char := c }, cursor := cur + 2 }
      else
        { piece := dud (some ch), done := false, item := it, cursor := cur + 1 }
  else
    { piece := it.from_, done := false, item := it, cursor := cur }

/-- The values held when the loop of `update` ends; `pieces` lists, for each
position in order, the text that was appended to `output`. -/
structure Loop where
  output : JsString
  complete : Nat
  queue : List Item
  cursor : Nat
  pieces : List JsString

/-- The loop of `update` (lines 33-47) over the records that remain. -/
def updateLoop (rng : Nat → ℚ) (frame : Nat) : List Item → Nat → Loop
  | [], cur => { output := [], complete := 0, queue := [], cursor := cur, pieces := [] }
  | it :: rest, cur =>
    let b := updateItem rng frame it cur
    let r := updateLoop rng frame rest b.cursor
    { output := b.piece ++ r.output
      complete := (if b.done then 1 else 0) + r.complete
      queue := b.item :: r.queue
      cursor := r.cursor
      pieces := b.piece :: r.pieces }

/-- The animator together with the host state it interacts with. -/
structure State where
  /-- Content of `this.el.innerHTML`. -/
  innerHTML : JsString
  /-- Field `this.queue`. -/
  queue : List Item
  /-- Field `this.frame`. -/
  frame : Nat
  /-- Field `this.resolve`: the number of the promise whose resolver it holds. -/
  resolve : Option Nat
  /-- Field `this.frameRequest`: the handle stored by line 54. -/
  frameRequest : Option Nat
  /-- Host: handles of the requested callbacks to `this.update` that have
  neither run nor been cancelled. -/
  pending : List Nat
  /-- Host: the handle the next `requestAnimationFrame` returns. -/
  nextHandle : Nat
  /-- Host: the number of the next promise created. -/
  nextPromise : Nat
  /-- Host: the number of calls of `Math.random()` made so far. -/
  cursor : Nat
  /-- Instrumentation: the per-position texts of the last write of line 49. -/
  pieces : List JsString
  /-- Instrumentation: the number of writes of line 49 so far. -/
  writes : Nat
  /-- Instrumentation: the promises whose resolver was called, latest first. -/
  resolved : List Nat

/-- The state left by the constructor (lines 3-7) on an element whose content
is `html`; `update` is not reachable before the first `setText`. -/
def init (html : JsString) : State :=
  { innerHTML := html, queue := [], frame := 0, resolve := none, frameRequest := none
    pending := [], nextHandle := 1, nextPromise := 0, cursor := 0
    pieces := [], writes := 0, resolved := [] }

/-- Host function `cancelAnimationFrame(handle)`; an `undefined` handle
cancels nothing. -/
def cancelAnimationFrame (handle : Option Nat) (pending : List Nat) : List Nat :=
  match handle with
  | some h => pending.filter (fun x => x ≠ h)
  | none => pending

/-- The method `update` (lines 29-57). -/
def update (rng : Nat → ℚ) (s : State) : State :=
  let r := updateLoop rng s.frame s.queue s.cursor
  let s1 : State :=
    { s with
      innerHTML := r.output, queue := r.queue, cursor := r.cursor
      pieces := r.pieces, writes := s.writes + 1 }
  if r.complete = s1.queue.length then
    { s1 with resolved := s1.resolve.toList ++ s1.resolved }
  else
    { s1 with
      frameRequest := some s1.nextHandle
      pending := s1.pending ++ [s1.nextHandle]
      nextHandle := s1.nextHandle + 1
      frame := s1.frame + 1 }

/-- Lines 10-24 of `setText`: everything before the call of `update`;
`oldText` is the value read from `this.el.innerText`. -/
def prepare (rng : Nat → ℚ) (oldText newText : JsString) (s : State) : State :=
  let length := max oldText.length newText.length
  { s with
    resolve := some s.nextPromise
    nextPromise := s.nextPromise + 1
    queue := buildQueue rng oldText newText length 0 s.cursor
    cursor := s.cursor + 2 * length
    pending := cancelAnimationFrame s.frameRequest s.pending
    frame := 0 }

/-- The method `setText` (lines 9-27); the promise it returns is the one
numbered `s.nextPromise`. -/
def setText (rng : Nat → ℚ) (oldText newText : JsString) (s : State) : State :=
  update rng (prepare rng oldText newText s)

/-- Host: one pending callback is taken off the list and run, unless it was
cancelled in the meantime. -/
def runCallback (rng : Nat → ℚ) (s : State) (h : Nat) : State :=
  if h ∈ s.pending then update rng { s with pending := s.pending.filter (fun x => x ≠ h) }
  else s

/-- Host: one animation frame; the callbacks pending when the frame begins are
run in order, those requested during the frame wait for the next one. -/
def tick (rng : Nat → ℚ) (s : State) : State :=
  s.pending.foldl (runCallback rng) s

/-- The state after `n` animation frames with no other event. -/
def ticks (rng : Nat → ℚ) : Nat → State → State
  | 0, s => s
  | n + 1, s => tick rng (ticks rng n s)

/-- The states an animator can be in: any interleaving of `setText` calls
(with any element text and any argument) and animation frames. -/
inductive Reachable (rng : Nat → ℚ) : State → Prop
  | start (html : JsString) : Reachable rng (init html)
  | call (s : State) (oldText newText : JsString) :
      Reachable rng s → Reachable rng (setText rng oldText newText s)
  | frame (s : State) : Reachable rng s → Reachable rng (tick rng s)

/-- Every result of `Math.random()` lies in `[0, 1)`. -/
def ValidDraws (rng : Nat → ℚ) : Prop := ∀ n, 0 ≤ rng n ∧ rng n < 1

/-- The first frame at which every record of the queue is complete: the
largest `end`, and `0` for an empty queue. -/
def lastEnd : List Item → Nat
  | [] => 0
  | it :: rest => max it.end_.toNat (lastEnd rest)

/-- The fields of a record that `update` never writes. -/
def Item.key (it : Item) : JsString × JsString × Int × Int :=
  (it.from_, it.to_, it.start, it.end_)

/-- Every stored filler glyph of the queue is a code unit of `chars`. -/
def GlyphsOK (q : List Item) : Prop :=
  ∀ it ∈ q, ∀ c, it.char = some c → c ∈ chars

/-- State `s` holds what the run of `update` at frame `g` wrote, for a queue
with the schedule of `q0`. -/
def Wrote (rng : Nat → ℚ) (q0 : List Item) (g : Nat) (s : State) : Prop :=
  ∃ q cur, q.map Item.key = q0.map Item.key ∧ (ValidDraws rng → GlyphsOK q) ∧
    s.queue = (updateLoop rng g q cur).queue ∧
    s.pieces = (updateLoop rng g q cur).pieces ∧
    s.innerHTML = (updateLoop rng g q cur).output

/-- State `s` is about to run `update` at frame `g` of the transition prepared
in state `p`. -/
structure Ready (rng : Nat → ℚ) (p : State) (g : Nat) (s : State) : Prop where
  keys : s.queue.map Item.key = p.queue.map Item.key
  glyphs : ValidDraws rng → GlyphsOK s.queue
  frame : s.frame = g
  pending : s.pending = []
  nextHandle : s.nextHandle = p.nextHandle + g
  resolve : s.resolve = p.resolve
  resolved : s.resolved = p.resolved
  writes : s.writes = p.writes + g
  nextPromise : s.nextPromise = p.nextPromise

/-- State `s` follows the run of `update` at frame `g`, which did not complete
the transition prepared in `p`. -/
structure Running (rng : Nat → ℚ) (p : State) (g : Nat) (s : State) : Prop where
  wrote : Wrote rng p.queue g s
  frame : s.frame = g + 1
  pending : s.pending = [p.nextHandle + g]
  frameRequest : s.frameRequest = some (p.nextHandle + g)
  nextHandle : s.nextHandle = p.nextHandle + g + 1
  resolve : s.resolve = p.resolve
  resolved : s.resolved = p.resolved
  writes : s.writes = p.writes + g + 1
  nextPromise : s.nextPromise = p.nextPromise

/-- State `s` follows the run of `update` that completed the transition
prepared in `p`. -/
structure Finished (rng : Nat → ℚ) (p : State) (s : State) : Prop where
  wrote : Wrote rng p.queue (lastEnd p.queue) s
  pieces : s.pieces = p.queue.map Item.to_
  html : s.innerHTML = (p.queue.map Item.to_).flatten
  frame : s.frame = lastEnd p.queue
  pending : s.pending = []
  nextHandle : s.nextHandle = p.nextHandle + lastEnd p.queue
  resolve : s.resolve = p.resolve
  resolved : s.resolved = p.resolve.toList ++ p.resolved
  writes : s.writes = p.writes + lastEnd p.queue + 1
  nextPromise : s.nextPromise = p.nextPromise

/-- What holds in every reachable state: at most one callback is pending and
it is the one whose handle `frameRequest` stores; the resolver held is that of
the promise created last; every promise resolved so far has been created. -/
structure Inv (s : State) : Prop where
  single : s.pending = [] ∨ ∃ h, s.pending = [h] ∧ s.frameRequest = some h
  held : ∀ q, s.resolve = some q → q + 1 = s.nextPromise
  fresh : ∀ q ∈ s.resolved, q < s.nextPromise

/-- The schedule `setText(newText)` builds over the element text `oldText`. -/
def schedule (rng : Nat → ℚ) (oldText newText : JsString) (s : State) : List Item :=
  (prepare rng oldText newText s).queue

/-- A sequence of draws used in the examples: every draw is one half. -/
def drawsHalf : Nat → ℚ := fun _ => 1 / 2

/-- A reachable state used in the examples: two calls of `setText`, each
followed by one animation frame. -/
def sampleState : State :=
  tick drawsHalf (setText drawsHalf (lit "HELLO") (lit "WORLD!")
    (tick drawsHalf (setText drawsHalf [] (lit "HELLO") (init []))))

/-- The executions that continue from a state: any further `setText` calls
and animation frames. -/
inductive Steps (rng : Nat → ℚ) (s : State) : State → Prop
  | here : Steps rng s s
  | call (u : State) (oldText newText : JsString) :
      Steps rng s u → Steps rng s (setText rng oldText newText u)
  | frame (u : State) : Steps rng s u → Steps rng s (tick rng u)

/-- The state after a first `setText` on an empty element, with every draw one
half: the transition is in flight and its promise `0` is not resolved. -/
def firstCall : State := setText drawsHalf [] (lit "HELLO") (init [])

/-- A sequence of draws in `[0, 1)`: the second draw is one half, all others
are zero. -/
def drawsScramble : Nat → ℚ := fun n => if n = 1 then 1 / 2 else 0

/-! ## The loop body -/

theorem chars_length : chars.length = 26 := by decide

theorem randomChar_mem (r : ℚ) (h0 : 0 ≤ r) (h1 : r < 1) :
    ∃ c, randomChar r = some c ∧ c ∈ chars := by
  have hk0 : (0 : Int) ≤ ⌊r * (chars.length : ℚ)⌋ := by
    rw [Int.floor_nonneg]
    exact mul_nonneg h0 (by simp [chars_length])
  have hk1 : ⌊r * (chars.length : ℚ)⌋ < 26 := by
    rw [Int.floor_lt, chars_length]
    push_cast
    linarith
  have hlt : (⌊r * (chars.length : ℚ)⌋).toNat < chars.length := by
    have h26 : chars.length = 26 := chars_length
    omega
  refine ⟨chars[(⌊r * (chars.length : ℚ)⌋).toNat], ?_, List.getElem_mem _⟩
  simp only [randomChar, hk0, if_true]
  exact List.getElem?_eq_getElem hlt

theorem updateItem_key (rng : Nat → ℚ) (f : Nat) (it : Item) (cur : Nat) :
    (updateItem rng f it cur).item.key = it.key := by
  unfold updateItem
  split
  · rfl
  · split
    · split
      · rfl
      · split <;> rfl
    · rfl

theorem updateItem_done (rng : Nat → ℚ) (f : Nat) (it : Item) (cur : Nat) :
    (updateItem rng f it cur).done = true ↔ it.end_ ≤ (f : Int) := by
  unfold updateItem
  split
  · simp [*]
  · split
    · split
      · simp [*]
      · split <;> simp [*]
    · simp [*]

theorem updateItem_settled (rng : Nat → ℚ) (f : Nat) (it : Item) (cur : Nat)
    (h : it.end_ ≤ (f : Int)) :
    updateItem rng f it cur = { piece := it.to_, done := true, item := it, cursor := cur } := by
  simp [updateItem, h]

theorem updateItem_before (rng : Nat → ℚ) (f : Nat) (it : Item) (cur : Nat)
    (h1 : ¬ it.end_ ≤ (f : Int)) (h2 : ¬ it.start ≤ (f : Int)) :
    (updateItem rng f it cur).piece = it.from_ := by
  simp [updateItem, h1, h2]

theorem updateItem_scrambling (rng : Nat → ℚ) (f : Nat) (it : Item) (cur : Nat)
    (h1 : ¬ it.end_ ≤ (f : Int)) (h2 : it.start ≤ (f : Int)) :
    (updateItem rng f it cur).piece = dud (updateItem rng f it cur).item.char := by
  unfold updateItem
  simp only [h1, h2, if_false, if_true]
  split
  · rfl
  · split
    · rfl
    · simp [*]

theorem updateItem_glyph (rng : Nat → ℚ) (hv : ValidDraws rng) (f : Nat) (it : Item)
    (cur : Nat) (hit : ∀ c, it.char = some c → c ∈ chars) :
    ∀ c, (updateItem rng f it cur).item.char = some c → c ∈ chars := by
  unfold updateItem
  split
  · exact hit
  · split
    · split
      · intro c hc
        obtain ⟨d, hd, hmem⟩ := randomChar_mem (rng cur) (hv cur).1 (hv cur).2
        simp only [hd, Option.some.injEq] at hc
        exact hc ▸ hmem
      · split
        · intro c hc
          obtain ⟨d, hd, hmem⟩ :=
            randomChar_mem (rng (cur + 1)) (hv (cur + 1)).1 (hv (cur + 1)).2
          simp only [hd, Option.some.injEq] at hc
          exact hc ▸ hmem
        · exact hit
    · exact hit

theorem updateItem_glyph_some (rng : Nat → ℚ) (hv : ValidDraws rng) (f : Nat) (it : Item)
    (cur : Nat) (h1 : ¬ it.end_ ≤ (f : Int)) (h2 : it.start ≤ (f : Int)) :
    ∃ c, (updateItem rng f it cur).item.char = some c := by
  unfold updateItem
  simp only [h1, h2, if_false, if_true]
  split
  · obtain ⟨d, hd, _⟩ := randomChar_mem (rng cur) (hv cur).1 (hv cur).2
    exact ⟨d, hd⟩
  · rename_i ch hch
    split
    · obtain ⟨d, hd, _⟩ := randomChar_mem (rng (cur + 1)) (hv (cur + 1)).1 (hv (cur + 1)).2
      exact ⟨d, hd⟩
    · exact ⟨ch, hch⟩

/-! ## The loop of `update` -/

theorem updateLoop_output (rng : Nat → ℚ) (f : Nat) (q : List Item) :
    ∀ cur, (updateLoop rng f q cur).output = (updateLoop rng f q cur).pieces.flatten := by
  induction q with
  | nil => intro cur; rfl
  | cons it rest ih =>
    intro cur
    simp only [updateLoop, List.flatten_cons]
    rw [ih]

theorem updateLoop_pieces_length (rng : Nat → ℚ) (f : Nat) (q : List Item) :
    ∀ cur, (updateLoop rng f q cur).pieces.length = q.length := by
  induction q with
  | nil => intro cur; rfl
  | cons it rest ih =>
    intro cur
    simp only [updateLoop, List.length_cons]
    rw [ih]

theorem updateLoop_keys (rng : Nat → ℚ) (f : Nat) (q : List Item) :
    ∀ cur, (updateLoop rng f q cur).queue.map Item.key = q.map Item.key := by
  induction q with
  | nil => intro cur; rfl
  | cons it rest ih =>
    intro cur
    simp only [updateLoop, List.map_cons]
    rw [ih, updateItem_key]

theorem updateLoop_queue_length (rng : Nat → ℚ) (f : Nat) (q : List Item) (cur : Nat) :
    (updateLoop rng f q cur).queue.length = q.length := by
  have h := congrArg List.length (updateLoop_keys rng f q cur)
  simpa using h

theorem updateLoop_complete_le (rng : Nat → ℚ) (f : Nat) (q : List Item) :
    ∀ cur, (updateLoop rng f q cur).complete ≤ q.length := by
  induction q with
  | nil => intro cur; simp [updateLoop]
  | cons it rest ih =>
    intro cur
    have h := ih (updateItem rng f it cur).cursor
    simp only [updateLoop, List.length_cons]
    split <;> omega

theorem updateLoop_complete_iff (rng : Nat → ℚ) (f : Nat) (q : List Item) :
    ∀ cur, (updateLoop rng f q cur).complete = q.length ↔ ∀ it ∈ q, it.end_ ≤ (f : Int) := by
  induction q with
  | nil => intro cur; simp [updateLoop]
  | cons it rest ih =>
    intro cur
    have hle := updateLoop_complete_le rng f rest (updateItem rng f it cur).cursor
    have hrec := ih (updateItem rng f it cur).cursor
    have hd := updateItem_done rng f it cur
    simp only [updateLoop, List.length_cons, List.mem_cons, forall_eq_or_imp]
    by_cases hdone : (updateItem rng f it cur).done = true
    · simp only [hdone, if_true]
      rw [← hrec]
      constructor
      · intro h
        exact ⟨hd.mp hdone, by omega⟩
      · intro h
        omega
    · simp only [hdone]
      constructor
      · intro h
        simp only [Bool.false_eq_true, if_false] at h
        omega
      · intro h
        exact absurd (hd.mpr h.1) hdone

theorem lastEnd_le_iff (q : List Item) (f : Nat) :
    lastEnd q ≤ f ↔ ∀ it ∈ q, it.end_ ≤ (f : Int) := by
  induction q with
  | nil => simp [lastEnd]
  | cons it rest ih =>
    simp only [lastEnd, max_le_iff, ih, List.mem_cons, forall_eq_or_imp, Int.toNat_le]

theorem lastEnd_congr (q q2 : List Item) (h : q.map Item.key = q2.map Item.key) :
    lastEnd q = lastEnd q2 := by
  induction q generalizing q2 with
  | nil =>
    cases q2 with
    | nil => rfl
    | cons b t => simp at h
  | cons a t ih =>
    cases q2 with
    | nil => simp at h
    | cons b t2 =>
      simp only [List.map_cons, List.cons.injEq, Item.key, Prod.mk.injEq] at h
      simp only [lastEnd, ih t2 h.2, h.1.2.2.2]

theorem updateLoop_settled (rng : Nat → ℚ) (f : Nat) (q : List Item) :
    ∀ cur, (∀ it ∈ q, it.end_ ≤ (f : Int)) →
      (updateLoop rng f q cur).pieces = q.map Item.to_ ∧
      (updateLoop rng f q cur).queue = q ∧
      (updateLoop rng f q cur).cursor = cur := by
  induction q with
  | nil => intro cur _; simp [updateLoop]
  | cons it rest ih =>
    intro cur h
    have h1 : it.end_ ≤ (f : Int) := h it (List.mem_cons_self _ _)
    have h2 := ih cur (fun x hx => h x (List.mem_cons_of_mem _ hx))
    simp only [updateLoop, updateItem_settled rng f it cur h1, List.map_cons]
    simp [h2.1, h2.2.1, h2.2.2]

theorem updateLoop_at (rng : Nat → ℚ) (f : Nat) (q : List Item) :
    ∀ (cur i : Nat) (it : Item), q[i]? = some it →
      ∃ c, (updateLoop rng f q cur).pieces[i]? = some (updateItem rng f it c).piece ∧
        (updateLoop rng f q cur).queue[i]? = some (updateItem rng f it c).item := by
  induction q with
  | nil => intro cur i it h; simp at h
  | cons a rest ih =>
    intro cur i it h
    cases i with
    | zero =>
      simp only [List.getElem?_cons_zero, Option.some.injEq] at h
      subst h
      exact ⟨cur, by simp [updateLoop]⟩
    | succ j =>
      simp only [List.getElem?_cons_succ] at h
      obtain ⟨c, hc1, hc2⟩ := ih (updateItem rng f a cur).cursor j it h
      exact ⟨c, by simpa [updateLoop] using hc1, by simpa [updateLoop] using hc2⟩

theorem updateLoop_glyphs (rng : Nat → ℚ) (hv : ValidDraws rng) (f : Nat) (q : List Item) :
    ∀ cur, GlyphsOK q → GlyphsOK (updateLoop rng f q cur).queue := by
  induction q with
  | nil => intro cur h; simpa [updateLoop] using h
  | cons a rest ih =>
    intro cur h
    have ha : ∀ c, a.char = some c → c ∈ chars := h a (List.mem_cons_self _ _)
    have hrest : GlyphsOK rest := fun x hx => h x (List.mem_cons_of_mem _ hx)
    intro x hx
    simp only [updateLoop, List.mem_cons] at hx
    rcases hx with hx | hx
    · subst hx
      exact updateItem_glyph rng hv f a cur ha
    · exact ih _ hrest x hx

/-! ## The schedule built by `setText` -/

theorem buildQueue_length (rng : Nat → ℚ) (o t : JsString) :
    ∀ n i cur, (buildQueue rng o t n i cur).length = n := by
  intro n
  induction n with
  | zero => intro i cur; rfl
  | succ n ih => intro i cur; simp [buildQueue, ih]

theorem buildQueue_at (rng : Nat → ℚ) (o t : JsString) :
    ∀ (n i cur j : Nat), j < n →
      (buildQueue rng o t n i cur)[j]? =
        some (mkItem o t (i + j) (rng (cur + 2 * j)) (rng (cur + 2 * j + 1))) := by
  intro n
  induction n with
  | zero => intro i cur j h; omega
  | succ n ih =>
    intro i cur j h
    cases j with
    | zero => simp [buildQueue]
    | succ k =>
      have hk : k < n := by omega
      simp only [buildQueue, List.getElem?_cons_succ, ih (i + 1) (cur + 2) k hk]
      have e1 : i + 1 + k = i + (k + 1) := by omega
      have e2 : cur + 2 + 2 * k = cur + 2 * (k + 1) := by omega
      rw [e1, e2]

theorem buildQueue_glyphs (rng : Nat → ℚ) (o t : JsString) :
    ∀ n i cur, GlyphsOK (buildQueue rng o t n i cur) := by
  intro n
  induction n with
  | zero => intro i cur it h; simp [buildQueue] at h
  | succ n ih =>
    intro i cur it h
    simp only [buildQueue, List.mem_cons] at h
    rcases h with h | h
    · subst h
      intro c hc
      simp [mkItem] at hc
    · exact ih _ _ it h

theorem charOrEmpty_append_drop (t : JsString) (i : Nat) :
    charOrEmpty t i ++ t.drop (i + 1) = t.drop i := by
  unfold charOrEmpty
  by_cases h : i < t.length
  · rw [List.getElem?_eq_getElem h]
    simp
  · have h2 : t.length ≤ i := by omega
    rw [List.getElem?_eq_none h2]
    simp [List.drop_eq_nil_of_le h2, List.drop_eq_nil_of_le (Nat.le_succ_of_le h2)]

theorem charOrEmpty_length (t : JsString) (i : Nat) : (charOrEmpty t i).length ≤ 1 := by
  unfold charOrEmpty
  split <;> simp

theorem charOrEmpty_eq (t : JsString) (i : Nat) : charOrEmpty t i = t[i]?.toList := by
  unfold charOrEmpty
  cases t[i]? <;> rfl

theorem buildQueue_to (rng : Nat → ℚ) (o t : JsString) :
    ∀ n i cur, t.length ≤ i + n →
      ((buildQueue rng o t n i cur).map Item.to_).flatten = t.drop i := by
  intro n
  induction n with
  | zero =>
    intro i cur h
    simp [buildQueue, List.drop_eq_nil_of_le (by omega : t.length ≤ i)]
  | succ n ih =>
    intro i cur h
    simp only [buildQueue, List.map_cons, List.flatten_cons]
    rw [ih (i + 1) (cur + 2) (by omega)]
    simp only [mkItem]
    exact charOrEmpty_append_drop t i

theorem draw40_range (r : ℚ) (h0 : 0 ≤ r) (h1 : r < 1) : 0 ≤ draw40 r ∧ draw40 r < 40 := by
  unfold draw40
  constructor
  · rw [Int.floor_nonneg]
    linarith
  · rw [Int.floor_lt]
    push_cast
    linarith

theorem buildQueue_timing (rng : Nat → ℚ) (hv : ValidDraws rng) (o t : JsString) :
    ∀ n i cur, ∀ it ∈ buildQueue rng o t n i cur,
      0 ≤ it.start ∧ it.start ≤ it.end_ ∧ it.start < 40 ∧ it.end_ < 80 := by
  intro n
  induction n with
  | zero => intro i cur it h; simp [buildQueue] at h
  | succ n ih =>
    intro i cur it h
    simp only [buildQueue, List.mem_cons] at h
    rcases h with h | h
    · subst h
      have a := draw40_range (rng cur) (hv cur).1 (hv cur).2
      have b := draw40_range (rng (cur + 1)) (hv (cur + 1)).1 (hv (cur + 1)).2
      simp only [mkItem]
      omega
    · exact ih _ _ it h

theorem lastEnd_lt (q : List Item) (b : Nat) (hb : 0 < b)
    (h : ∀ it ∈ q, it.end_ < (b : Int)) : lastEnd q < b := by
  induction q with
  | nil => simpa [lastEnd] using hb
  | cons a rest ih =>
    have ha := h a (List.mem_cons_self _ _)
    have hr := ih (fun x hx => h x (List.mem_cons_of_mem _ hx))
    simp only [lastEnd, max_lt_iff]
    exact ⟨by omega, hr⟩

/-! ## One run of `update` -/

theorem update_running (rng : Nat → ℚ) (s : State) (h : ¬ lastEnd s.queue ≤ s.frame) :
    update rng s =
      { s with
        innerHTML := (updateLoop rng s.frame s.queue s.cursor).output
        queue := (updateLoop rng s.frame s.queue s.cursor).queue
        cursor := (updateLoop rng s.frame s.queue s.cursor).cursor
        pieces := (updateLoop rng s.frame s.queue s.cursor).pieces
        writes := s.writes + 1
        frameRequest := some s.nextHandle
        pending := s.pending ++ [s.nextHandle]
        nextHandle := s.nextHandle + 1
        frame := s.frame + 1 } := by
  have hc : ¬ (updateLoop rng s.frame s.queue s.cursor).complete = s.queue.length := by
    rw [updateLoop_complete_iff, ← lastEnd_le_iff]
    exact h
  simp only [update, updateLoop_queue_length, hc, if_false]

theorem update_finished (rng : Nat → ℚ) (s : State) (h : lastEnd s.queue ≤ s.frame) :
    update rng s =
      { s with
        innerHTML := (s.queue.map Item.to_).flatten
        pieces := s.queue.map Item.to_
        writes := s.writes + 1
        resolved := s.resolve.toList ++ s.resolved } := by
  have hall := (lastEnd_le_iff s.queue s.frame).mp h
  have hc : (updateLoop rng s.frame s.queue s.cursor).complete = s.queue.length := by
    rw [updateLoop_complete_iff]
    exact hall
  obtain ⟨h1, h2, h3⟩ := updateLoop_settled rng s.frame s.queue s.cursor hall
  simp only [update, updateLoop_queue_length, hc, if_true, updateLoop_output, h1, h2, h3]

theorem tick_idle (rng : Nat → ℚ) (s : State) (h : s.pending = []) : tick rng s = s := by
  simp [tick, h]

theorem tick_single (rng : Nat → ℚ) (s : State) (h : Nat) (hp : s.pending = [h]) :
    tick rng s = update rng { s with pending := [] } := by
  simp [tick, hp, runCallback]

/-! ## An uninterrupted transition, frame by frame -/

theorem map_to_congr (q q2 : List Item) (h : q.map Item.key = q2.map Item.key) :
    q.map Item.to_ = q2.map Item.to_ := by
  have e : ∀ l : List Item, l.map Item.to_ = (l.map Item.key).map (fun k => k.2.1) := by
    intro l
    simp [Item.key, Function.comp_def]
  rw [e q, e q2, h]

theorem Wrote.keys {rng : Nat → ℚ} {q0 : List Item} {g : Nat} {s : State}
    (h : Wrote rng q0 g s) : s.queue.map Item.key = q0.map Item.key := by
  obtain ⟨q, cur, hk, _, hq, _, _⟩ := h
  rw [hq, updateLoop_keys, hk]

theorem Wrote.glyphs {rng : Nat → ℚ} {q0 : List Item} {g : Nat} {s : State}
    (h : Wrote rng q0 g s) (hv : ValidDraws rng) : GlyphsOK s.queue := by
  obtain ⟨q, cur, _, hg, hq, _, _⟩ := h
  rw [hq]
  exact updateLoop_glyphs rng hv g q cur (hg hv)

theorem update_wrote (rng : Nat → ℚ) (q0 : List Item) (s : State)
    (hk : s.queue.map Item.key = q0.map Item.key) (hg : ValidDraws rng → GlyphsOK s.queue) :
    Wrote rng q0 s.frame (update rng s) := by
  refine ⟨s.queue, s.cursor, hk, hg, ?_, ?_, ?_⟩ <;>
    · unfold update
      simp only
      split <;> rfl

theorem Ready.step {rng : Nat → ℚ} {p : State} {g : Nat} {s : State}
    (h : Ready rng p g s) :
    (g < lastEnd p.queue → Running rng p g (update rng s)) ∧
    (g = lastEnd p.queue → Finished rng p (update rng s)) := by
  have hl : lastEnd s.queue = lastEnd p.queue := lastEnd_congr _ _ h.keys
  have hw : Wrote rng p.queue g (update rng s) := by
    have := update_wrote rng p.queue s h.keys h.glyphs
    rwa [h.frame] at this
  constructor
  · intro hlt
    have hn : ¬ lastEnd s.queue ≤ s.frame := by rw [hl, h.frame]; omega
    have e := update_running rng s hn
    refine ⟨hw, ?_, ?_, ?_, ?_, ?_, ?_, ?_, ?_⟩
    · rw [e]; simp [h.frame]
    · rw [e]; simp [h.pending, h.nextHandle]
    · rw [e]; simp [h.nextHandle]
    · rw [e]; simp [h.nextHandle]
    · rw [e]; exact h.resolve
    · rw [e]; exact h.resolved
    · rw [e]; simp [h.writes]
    · rw [e]; exact h.nextPromise
  · intro heq
    have hn : lastEnd s.queue ≤ s.frame := by rw [hl, h.frame]; omega
    have e := update_finished rng s hn
    have hto := map_to_congr _ _ h.keys
    refine ⟨heq ▸ hw, ?_, ?_, ?_, ?_, ?_, ?_, ?_, ?_, ?_⟩
    · rw [e]; exact hto
    · rw [e]; simp [hto]
    · rw [e]; simp [h.frame, heq]
    · rw [e]; exact h.pending
    · rw [e]; simp [h.nextHandle, heq]
    · rw [e]; exact h.resolve
    · rw [e]; simp [h.resolve, h.resolved]
    · rw [e]; simp [h.writes, heq]
    · rw [e]; exact h.nextPromise

theorem Running.ready {rng : Nat → ℚ} {p : State} {g : Nat} {s : State}
    (h : Running rng p g s) : Ready rng p (g + 1) { s with pending := [] } :=
  { keys := h.wrote.keys
    glyphs := h.wrote.glyphs
    frame := h.frame
    pending := rfl
    nextHandle := h.nextHandle
    resolve := h.resolve
    resolved := h.resolved
    writes := h.writes
    nextPromise := h.nextPromise }

/-- The course of an uninterrupted transition: after the first `update` and
`g` further animation frames the state is `Running` while `g` is below the
last `end` of the schedule, and `Finished` from then on. -/
theorem trajectory (rng : Nat → ℚ) (p : State) (h0 : Ready rng p 0 p) :
    ∀ g, (g < lastEnd p.queue → Running rng p g (ticks rng g (update rng p))) ∧
      (lastEnd p.queue ≤ g → Finished rng p (ticks rng g (update rng p))) := by
  intro g
  induction g with
  | zero =>
    refine ⟨fun hlt => h0.step.1 hlt, fun hle => h0.step.2 ?_⟩
    omega
  | succ g ih =>
    by_cases hg : g < lastEnd p.queue
    · have hr := ih.1 hg
      have et : ticks rng (g + 1) (update rng p)
          = update rng { ticks rng g (update rng p) with pending := [] } := by
        show tick rng (ticks rng g (update rng p)) = _
        exact tick_single rng _ _ hr.pending
      rw [et]
      refine ⟨fun hlt => hr.ready.step.1 hlt, fun hle => hr.ready.step.2 ?_⟩
      omega
    · have hf := ih.2 (by omega)
      have et : ticks rng (g + 1) (update rng p) = ticks rng g (update rng p) := by
        show tick rng (ticks rng g (update rng p)) = _
        exact tick_idle rng _ hf.pending
      rw [et]
      exact ⟨fun hlt => absurd hlt (by omega), fun _ => hf⟩

/-! ## Facts about every run of `update`, and the invariant of reachable states -/

theorem update_cases (rng : Nat → ℚ) (s : State) :
    ((update rng s).pending = s.pending ++ [s.nextHandle] ∧
      (update rng s).frameRequest = some s.nextHandle ∧
      (update rng s).nextHandle = s.nextHandle + 1 ∧
      (update rng s).resolved = s.resolved) ∨
    ((update rng s).pending = s.pending ∧
      (update rng s).frameRequest = s.frameRequest ∧
      (update rng s).nextHandle = s.nextHandle ∧
      (update rng s).resolved = s.resolve.toList ++ s.resolved) := by
  by_cases h : lastEnd s.queue ≤ s.frame
  · right
    rw [update_finished rng s h]
    exact ⟨rfl, rfl, rfl, rfl⟩
  · left
    rw [update_running rng s h]
    exact ⟨rfl, rfl, rfl, rfl⟩

theorem update_resolve (rng : Nat → ℚ) (s : State) : (update rng s).resolve = s.resolve := by
  unfold update
  simp only
  split <;> rfl

theorem update_nextPromise (rng : Nat → ℚ) (s : State) :
    (update rng s).nextPromise = s.nextPromise := by
  unfold update
  simp only
  split <;> rfl

theorem update_writes (rng : Nat → ℚ) (s : State) : (update rng s).writes = s.writes + 1 := by
  unfold update
  simp only
  split <;> rfl

theorem update_resolved_mem (rng : Nat → ℚ) (s : State) (q : Nat)
    (h : q ∈ (update rng s).resolved) : q ∈ s.resolved ∨ s.resolve = some q := by
  rcases update_cases rng s with ⟨_, _, _, e⟩ | ⟨_, _, _, e⟩
  · rw [e] at h
    exact Or.inl h
  · rw [e, List.mem_append] at h
    rcases h with h | h
    · right
      cases hr : s.resolve with
      | none => simp [hr] at h
      | some r =>
        simp only [hr, Option.toList_some, List.mem_singleton] at h
        rw [h]
    · exact Or.inl h

theorem Inv.update {rng : Nat → ℚ} {s : State} (hp : s.pending = [])
    (hheld : ∀ q, s.resolve = some q → q + 1 = s.nextPromise)
    (hfresh : ∀ q ∈ s.resolved, q < s.nextPromise) : Inv (update rng s) := by
  refine ⟨?_, ?_, ?_⟩
  · rcases update_cases rng s with ⟨e1, e2, _, _⟩ | ⟨e1, _, _, _⟩
    · right
      exact ⟨s.nextHandle, by rw [e1, hp]; rfl, e2⟩
    · left
      rw [e1, hp]
  · intro q hq
    rw [update_resolve] at hq
    rw [update_nextPromise]
    exact hheld q hq
  · intro q hq
    rw [update_nextPromise]
    rcases update_resolved_mem rng s q hq with h | h
    · exact hfresh q h
    · have := hheld q h
      omega

theorem prepare_pending (rng : Nat → ℚ) (o t : JsString) (s : State) (h : Inv s) :
    (prepare rng o t s).pending = [] := by
  rcases h.single with e | ⟨x, e1, e2⟩
  · simp only [prepare, e, cancelAnimationFrame]
    split <;> simp
  · simp [prepare, e1, e2, cancelAnimationFrame]

theorem Inv.setText {rng : Nat → ℚ} {s : State} (h : Inv s) (o t : JsString) :
    Inv (setText rng o t s) := by
  apply Inv.update (prepare_pending rng o t s h)
  · intro q hq
    simp only [prepare, Option.some.injEq] at hq
    simp [prepare, hq]
  · intro q hq
    have := h.fresh q hq
    simp only [prepare]
    omega

theorem Inv.tick {rng : Nat → ℚ} {s : State} (h : Inv s) : Inv (tick rng s) := by
  rcases h.single with e | ⟨x, e1, _⟩
  · rw [tick_idle rng s e]
    exact h
  · rw [tick_single rng s x e1]
    exact Inv.update rfl h.held h.fresh

theorem Inv.init (html : JsString) : Inv (init html) :=
  ⟨Or.inl rfl, by intro q hq; simp [TextScramble.init] at hq,
    by intro q hq; simp [TextScramble.init] at hq⟩

theorem Reachable.inv {rng : Nat → ℚ} {s : State} (h : Reachable rng s) : Inv s := by
  induction h with
  | start html => exact Inv.init html
  | call s o t _ ih => exact ih.setText o t
  | frame s _ ih => exact ih.tick

/-- The state in which `setText` calls `update` is ready for frame 0. -/
theorem prepare_ready (rng : Nat → ℚ) (o t : JsString) (s : State) (h : Inv s) :
    Ready rng (prepare rng o t s) 0 (prepare rng o t s) :=
  { keys := rfl
    glyphs := fun _ => buildQueue_glyphs rng o t _ _ _
    frame := rfl
    pending := prepare_pending rng o t s h
    nextHandle := rfl
    resolve := rfl
    resolved := rfl
    writes := rfl
    nextPromise := rfl }

theorem schedule_eq (rng : Nat → ℚ) (o t : JsString) (s : State) :
    schedule rng o t s = buildQueue rng o t (max o.length t.length) 0 s.cursor := rfl

theorem schedule_to (rng : Nat → ℚ) (o t : JsString) (s : State) :
    ((schedule rng o t s).map Item.to_).flatten = t := by
  rw [schedule_eq, buildQueue_to rng o t _ 0 s.cursor (by omega)]
  rfl

/-- The course of the transition begun by `setText` in a reachable state. -/
theorem setText_course (rng : Nat → ℚ) (s : State) (h : Inv s) (o t : JsString) (g : Nat) :
    (g < lastEnd (schedule rng o t s) →
      Running rng (prepare rng o t s) g (ticks rng g (setText rng o t s))) ∧
    (lastEnd (schedule rng o t s) ≤ g →
      Finished rng (prepare rng o t s) (ticks rng g (setText rng o t s))) :=
  trajectory rng (prepare rng o t s) (prepare_ready rng o t s h) g

theorem buildQueue_map_to (rng : Nat → ℚ) (o t : JsString) :
    ∀ n i cur, (buildQueue rng o t n i cur).map Item.to_ =
      (List.range' i n).map (charOrEmpty t) := by
  intro n
  induction n with
  | zero => intro i cur; rfl
  | succ n ih =>
    intro i cur
    simp only [buildQueue, List.map_cons, List.range'_succ, ih (i + 1) (cur + 2)]
    rfl

theorem schedule_map_to (rng : Nat → ℚ) (o t : JsString) (s : State) :
    (schedule rng o t s).map Item.to_ =
      (List.range (max o.length t.length)).map (charOrEmpty t) := by
  rw [schedule_eq, buildQueue_map_to, List.range_eq_range']

theorem schedule_length (rng : Nat → ℚ) (o t : JsString) (s : State) :
    (schedule rng o t s).length = max o.length t.length := by
  rw [schedule_eq, buildQueue_length]

theorem dud_length (c : Option Nat) : 26 ≤ (dud c).length := by
  cases c with
  | none => simp [dud, lit]
  | some c => simp [dud, lit]

theorem Wrote.piece {rng : Nat → ℚ} {q0 : List Item} {g : Nat} {s : State}
    (h : Wrote rng q0 g s) (i : Nat) (it0 : Item) (hi : q0[i]? = some it0) :
    ∃ it c, it.key = it0.key ∧ (ValidDraws rng → ∀ ch, it.char = some ch → ch ∈ chars) ∧
      s.pieces[i]? = some (updateItem rng g it c).piece := by
  obtain ⟨q, cur, hk, hg, _, hp, _⟩ := h
  have hm : (q.map Item.key)[i]? = some it0.key := by
    rw [hk, List.getElem?_map, hi]
    rfl
  rw [List.getElem?_map] at hm
  cases hq : q[i]? with
  | none => simp [hq] at hm
  | some it =>
    simp only [hq, Option.map_some', Option.some.injEq] at hm
    obtain ⟨c, hc, _⟩ := updateLoop_at rng g q cur i it hq
    refine ⟨it, c, hm, ?_, ?_⟩
    · intro hv
      exact hg hv it (List.getElem?_mem hq)
    · rw [hp, hc]

theorem Wrote.settled {rng : Nat → ℚ} {q0 : List Item} {g : Nat} {s : State}
    (h : Wrote rng q0 g s) (i : Nat) (it0 : Item) (hi : q0[i]? = some it0)
    (he : it0.end_ ≤ (g : Int)) : s.pieces[i]? = some it0.to_ := by
  obtain ⟨it, c, hk, _, hp⟩ := h.piece i it0 hi
  simp only [Item.key, Prod.mk.injEq] at hk
  rw [hp, updateItem_settled rng g it c (by rw [hk.2.2.2]; exact he), hk.2.1]

theorem update_keys (rng : Nat → ℚ) (s : State) :
    (update rng s).queue.map Item.key = s.queue.map Item.key := by
  unfold update
  simp only
  split <;> exact updateLoop_keys rng s.frame s.queue s.cursor

theorem schedule_at (rng : Nat → ℚ) (o t : JsString) (s : State) (i : Nat) (it : Item)
    (hi : (schedule rng o t s)[i]? = some it) :
    i < max o.length t.length ∧ it.from_ = charOrEmpty o i ∧ it.to_ = charOrEmpty t i := by
  have hlt : i < max o.length t.length := by
    have h1 : i < (schedule rng o t s).length := by
      by_contra hc
      rw [List.getElem?_eq_none (by omega)] at hi
      exact Option.noConfusion hi
    rwa [schedule_length] at h1
  rw [schedule_eq, buildQueue_at rng o t _ 0 s.cursor i hlt] at hi
  simp only [Option.some.injEq, Nat.zero_add] at hi
  subst hi
  exact ⟨hlt, rfl, rfl⟩

theorem schedule_timing_mem (rng : Nat → ℚ) (hv : ValidDraws rng) (o t : JsString) (s : State) :
    ∀ it ∈ schedule rng o t s,
      0 ≤ it.start ∧ it.start ≤ it.end_ ∧ it.start < 40 ∧ it.end_ < 80 :=
  buildQueue_timing rng hv o t _ 0 s.cursor

theorem schedule_lastEnd (rng : Nat → ℚ) (hv : ValidDraws rng) (o t : JsString) (s : State) :
    lastEnd (schedule rng o t s) < 80 :=
  lastEnd_lt _ 80 (by decide) (fun it hit => (schedule_timing_mem rng hv o t s it hit).2.2.2)

theorem charOrEmpty_ne_dud (t : JsString) (i : Nat) (c : Option Nat) :
    charOrEmpty t i ≠ dud c := by
  intro h
  have h1 := charOrEmpty_length t i
  have h2 := dud_length c
  rw [h] at h1
  omega

theorem drawsHalf_valid : ValidDraws drawsHalf := by
  intro n
  simp only [drawsHalf]
  constructor <;> norm_num

/-! ## The properties of the text-scramble state machine -/

/-- C1 (endpoint correctness): for every old text, new text and sequence of
draws, the transition begun by `setText` in a reachable state does resolve its
promise, and whenever it has, the string written by the resolving `update` is
exactly `newText`: every position was written as `newText[i]` or the empty
string, and no written piece is a dud span. -/
theorem endpoint_correctness (rng : Nat → ℚ) (s0 : State) (h0 : Reachable rng s0)
    (oldText newText : JsString) :
    (∃ g, s0.nextPromise ∈ (ticks rng g (setText rng oldText newText s0)).resolved) ∧
    ∀ g, s0.nextPromise ∈ (ticks rng g (setText rng oldText newText s0)).resolved →
      (ticks rng g (setText rng oldText newText s0)).innerHTML = newText ∧
      (ticks rng g (setText rng oldText newText s0)).pieces =
        (List.range (max oldText.length newText.length)).map (charOrEmpty newText) ∧
      ∀ x ∈ (ticks rng g (setText rng oldText newText s0)).pieces, ∀ c, x ≠ dud c := by
  constructor
  · refine ⟨lastEnd (schedule rng oldText newText s0), ?_⟩
    have hf := (setText_course rng s0 h0.inv oldText newText _).2 (le_refl _)
    rw [hf.resolved]
    simp [prepare]
  · intro g hg
    by_cases hlt : g < lastEnd (schedule rng oldText newText s0)
    · have hr := (setText_course rng s0 h0.inv oldText newText g).1 hlt
      rw [hr.resolved] at hg
      have := h0.inv.fresh _ hg
      omega
    · have hf := (setText_course rng s0 h0.inv oldText newText g).2 (by omega)
      have hp : (ticks rng g (setText rng oldText newText s0)).pieces =
          (List.range (max oldText.length newText.length)).map (charOrEmpty newText) := by
        rw [hf.pieces]
        exact schedule_map_to rng oldText newText s0
      refine ⟨?_, hp, ?_⟩
      · rw [hf.html]
        exact schedule_to rng oldText newText s0
      · intro x hx c
        rw [hp, List.mem_map] at hx
        obtain ⟨i, _, rfl⟩ := hx
        exact charOrEmpty_ne_dud newText i c

theorem endpoint_correctness_witness :
    Reachable drawsHalf (init (lit "HELLO")) ∧
    ((∃ g, (init (lit "HELLO")).nextPromise ∈
        (ticks drawsHalf g (setText drawsHalf (lit "HELLO") (lit "WORLD!")
          (init (lit "HELLO")))).resolved) ∧
    ∀ g, (init (lit "HELLO")).nextPromise ∈
        (ticks drawsHalf g (setText drawsHalf (lit "HELLO") (lit "WORLD!")
          (init (lit "HELLO")))).resolved →
      (ticks drawsHalf g (setText drawsHalf (lit "HELLO") (lit "WORLD!")
          (init (lit "HELLO")))).innerHTML = lit "WORLD!" ∧
      (ticks drawsHalf g (setText drawsHalf (lit "HELLO") (lit "WORLD!")
          (init (lit "HELLO")))).pieces =
        (List.range (max (lit "HELLO").length (lit "WORLD!").length)).map
          (charOrEmpty (lit "WORLD!")) ∧
      ∀ x ∈ (ticks drawsHalf g (setText drawsHalf (lit "HELLO") (lit "WORLD!")
          (init (lit "HELLO")))).pieces, ∀ c, x ≠ dud c) :=
  ⟨Reachable.start _,
    endpoint_correctness drawsHalf (init (lit "HELLO")) (Reachable.start _)
      (lit "HELLO") (lit "WORLD!")⟩

/-- C2 (termination): with every draw in `[0, 1)`, a transition begun by
`setText` in a reachable state and left uninterrupted resolves its promise at
a frame `f ≤ 79`, that is after `f + 1 ≤ 80` runs of `update`, not before, and
from then on no callback is pending, no handle is issued and `update` does
not run again. -/
theorem termination_within_80 (rng : Nat → ℚ) (hv : ValidDraws rng) (s0 : State)
    (h0 : Reachable rng s0) (oldText newText : JsString) :
    ∃ f, f ≤ 79 ∧
      (ticks rng f (setText rng oldText newText s0)).resolved
        = s0.nextPromise :: s0.resolved ∧
      (ticks rng f (setText rng oldText newText s0)).frame = f ∧
      (ticks rng f (setText rng oldText newText s0)).writes = s0.writes + (f + 1) ∧
      (∀ g, g < f →
        (ticks rng g (setText rng oldText newText s0)).resolved = s0.resolved) ∧
      ∀ g, f ≤ g →
        (ticks rng g (setText rng oldText newText s0)).pending = [] ∧
        (ticks rng g (setText rng oldText newText s0)).nextHandle
          = (ticks rng f (setText rng oldText newText s0)).nextHandle ∧
        (ticks rng g (setText rng oldText newText s0)).writes = s0.writes + (f + 1) := by
  have hb := schedule_lastEnd rng hv oldText newText s0
  have hF := (setText_course rng s0 h0.inv oldText newText
    (lastEnd (schedule rng oldText newText s0))).2 (le_refl _)
  refine ⟨lastEnd (schedule rng oldText newText s0), by omega, ?_, ?_, ?_, ?_, ?_⟩
  · rw [hF.resolved]
    rfl
  · rw [hF.frame]
    rfl
  · rw [hF.writes]
    rfl
  · intro g hg
    have hr := (setText_course rng s0 h0.inv oldText newText g).1 hg
    rw [hr.resolved]
    rfl
  · intro g hg
    have hf := (setText_course rng s0 h0.inv oldText newText g).2 hg
    refine ⟨hf.pending, ?_, ?_⟩
    · rw [hf.nextHandle, hF.nextHandle]
    · rw [hf.writes]
      rfl

theorem termination_within_80_witness :
    ValidDraws drawsHalf ∧ Reachable drawsHalf (init (lit "HELLO")) ∧
    ∃ f, f ≤ 79 ∧
      (ticks drawsHalf f (setText drawsHalf (lit "HELLO") (lit "WORLD!")
        (init (lit "HELLO")))).resolved
        = (init (lit "HELLO")).nextPromise :: (init (lit "HELLO")).resolved ∧
      (ticks drawsHalf f (setText drawsHalf (lit "HELLO") (lit "WORLD!")
        (init (lit "HELLO")))).frame = f ∧
      (ticks drawsHalf f (setText drawsHalf (lit "HELLO") (lit "WORLD!")
        (init (lit "HELLO")))).writes = (init (lit "HELLO")).writes + (f + 1) ∧
      (∀ g, g < f →
        (ticks drawsHalf g (setText drawsHalf (lit "HELLO") (lit "WORLD!")
          (init (lit "HELLO")))).resolved = (init (lit "HELLO")).resolved) ∧
      ∀ g, f ≤ g →
        (ticks drawsHalf g (setText drawsHalf (lit "HELLO") (lit "WORLD!")
          (init (lit "HELLO")))).pending = [] ∧
        (ticks drawsHalf g (setText drawsHalf (lit "HELLO") (lit "WORLD!")
          (init (lit "HELLO")))).nextHandle
          = (ticks drawsHalf f (setText drawsHalf (lit "HELLO") (lit "WORLD!")
              (init (lit "HELLO")))).nextHandle ∧
        (ticks drawsHalf g (setText drawsHalf (lit "HELLO") (lit "WORLD!")
          (init (lit "HELLO")))).writes = (init (lit "HELLO")).writes + (f + 1) :=
  ⟨drawsHalf_valid, Reachable.start _,
    termination_within_80 drawsHalf drawsHalf_valid (init (lit "HELLO")) (Reachable.start _)
      (lit "HELLO") (lit "WORLD!")⟩

/-- C4 (schedule timing): with every draw in `[0, 1)`, the queue of `setText`
has one record per position and every record satisfies
`0 ≤ start ≤ end`, `start < 40` and `end < 80`. -/
theorem schedule_timing (rng : Nat → ℚ) (hv : ValidDraws rng) (s0 : State)
    (oldText newText : JsString) :
    (setText rng oldText newText s0).queue.length = max oldText.length newText.length ∧
    ∀ it ∈ (setText rng oldText newText s0).queue,
      0 ≤ it.start ∧ it.start ≤ it.end_ ∧ it.start < 40 ∧ it.end_ < 80 := by
  have hk : (setText rng oldText newText s0).queue.map Item.key
      = (schedule rng oldText newText s0).map Item.key :=
    update_keys rng (prepare rng oldText newText s0)
  constructor
  · have h := congrArg List.length hk
    simp only [List.length_map] at h
    rw [h, schedule_length]
  · intro it hit
    have hmem : it.key ∈ (schedule rng oldText newText s0).map Item.key := by
      rw [← hk]
      exact List.mem_map_of_mem _ hit
    obtain ⟨it0, h0, he⟩ := List.mem_map.mp hmem
    have ht := schedule_timing_mem rng hv oldText newText s0 it0 h0
    simp only [Item.key, Prod.mk.injEq] at he
    rw [← he.2.2.1, ← he.2.2.2]
    exact ht

theorem schedule_timing_witness :
    ValidDraws drawsHalf ∧
    ((setText drawsHalf (lit "HELLO") (lit "WORLD!") (init (lit "HELLO"))).queue.length
      = max (lit "HELLO").length (lit "WORLD!").length ∧
    ∀ it ∈ (setText drawsHalf (lit "HELLO") (lit "WORLD!") (init (lit "HELLO"))).queue,
      0 ≤ it.start ∧ it.start ≤ it.end_ ∧ it.start < 40 ∧ it.end_ < 80) :=
  ⟨drawsHalf_valid,
    schedule_timing drawsHalf drawsHalf_valid (init (lit "HELLO")) (lit "HELLO") (lit "WORLD!")⟩

/-- C6 (exactly-once completion): in an uninterrupted transition begun in a
reachable state, let `F` be the first frame at which every position has
`frame ≥ end` (the largest `end`, `0` for an empty schedule).  On every frame
before `F` the resolver has not been called, one further frame is requested
and the frame counter is incremented by one; the run of `update` at frame `F`
calls the resolver, and from then on it has been called exactly once. -/
theorem completion_exactly_once (rng : Nat → ℚ) (s0 : State) (h0 : Reachable rng s0)
    (oldText newText : JsString) :
    (∀ f : Nat, (∀ it ∈ schedule rng oldText newText s0, it.end_ ≤ (f : Int)) ↔
        lastEnd (schedule rng oldText newText s0) ≤ f) ∧
    (∀ g, g < lastEnd (schedule rng oldText newText s0) →
      (ticks rng g (setText rng oldText newText s0)).resolved.count s0.nextPromise = 0 ∧
      (ticks rng g (setText rng oldText newText s0)).frame = g + 1 ∧
      (ticks rng g (setText rng oldText newText s0)).pending = [s0.nextHandle + g] ∧
      (ticks rng g (setText rng oldText newText s0)).nextHandle = s0.nextHandle + g + 1 ∧
      (ticks rng g (setText rng oldText newText s0)).writes = s0.writes + g + 1) ∧
    (∀ g, lastEnd (schedule rng oldText newText s0) ≤ g →
      (ticks rng g (setText rng oldText newText s0)).resolved = s0.nextPromise :: s0.resolved ∧
      (ticks rng g (setText rng oldText newText s0)).resolved.count s0.nextPromise = 1 ∧
      (ticks rng g (setText rng oldText newText s0)).frame = lastEnd (schedule rng oldText newText s0) ∧
      (ticks rng g (setText rng oldText newText s0)).pending = [] ∧
      (ticks rng g (setText rng oldText newText s0)).writes = s0.writes + lastEnd (schedule rng oldText newText s0) + 1) := by
  have hfresh : s0.nextPromise ∉ s0.resolved := by
    intro h
    have := h0.inv.fresh _ h
    omega
  refine ⟨fun f => (lastEnd_le_iff _ f).symm, ?_, ?_⟩
  · intro g hg
    have hr := (setText_course rng s0 h0.inv oldText newText g).1 hg
    refine ⟨?_, hr.frame, hr.pending, hr.nextHandle, hr.writes⟩
    rw [hr.resolved]
    exact List.count_eq_zero_of_not_mem hfresh
  · intro g hg
    have hf := (setText_course rng s0 h0.inv oldText newText g).2 hg
    have e : (ticks rng g (setText rng oldText newText s0)).resolved
        = s0.nextPromise :: s0.resolved := by
      rw [hf.resolved]
      rfl
    refine ⟨e, ?_, hf.frame, hf.pending, hf.writes⟩
    rw [e, List.count_cons_self, List.count_eq_zero_of_not_mem hfresh]

theorem completion_exactly_once_witness :
    Reachable drawsHalf (init (lit "HELLO")) ∧
    ((∀ f : Nat, (∀ it ∈ schedule drawsHalf (lit "HELLO") (lit "WORLD!") (init (lit "HELLO")), it.end_ ≤ (f : Int)) ↔
        lastEnd (schedule drawsHalf (lit "HELLO") (lit "WORLD!") (init (lit "HELLO"))) ≤ f) ∧
    (∀ g, g < lastEnd (schedule drawsHalf (lit "HELLO") (lit "WORLD!") (init (lit "HELLO"))) →
      (ticks drawsHalf g (setText drawsHalf (lit "HELLO") (lit "WORLD!")
          (init (lit "HELLO")))).resolved.count (init (lit "HELLO")).nextPromise = 0 ∧
      (ticks drawsHalf g (setText drawsHalf (lit "HELLO") (lit "WORLD!")
          (init (lit "HELLO")))).frame = g + 1 ∧
      (ticks drawsHalf g (setText drawsHalf (lit "HELLO") (lit "WORLD!")
          (init (lit "HELLO")))).pending = [(init (lit "HELLO")).nextHandle + g] ∧
      (ticks drawsHalf g (setText drawsHalf (lit "HELLO") (lit "WORLD!")
          (init (lit "HELLO")))).nextHandle = (init (lit "HELLO")).nextHandle + g + 1 ∧
      (ticks drawsHalf g (setText drawsHalf (lit "HELLO") (lit "WORLD!")
          (init (lit "HELLO")))).writes = (init (lit "HELLO")).writes + g + 1) ∧
    (∀ g, lastEnd (schedule drawsHalf (lit "HELLO") (lit "WORLD!") (init (lit "HELLO"))) ≤ g →
      (ticks drawsHalf g (setText drawsHalf (lit "HELLO") (lit "WORLD!")
          (init (lit "HELLO")))).resolved = (init (lit "HELLO")).nextPromise :: (init (lit "HELLO")).resolved ∧
      (ticks drawsHalf g (setText drawsHalf (lit "HELLO") (lit "WORLD!")
          (init (lit "HELLO")))).resolved.count (init (lit "HELLO")).nextPromise = 1 ∧
      (ticks drawsHalf g (setText drawsHalf (lit "HELLO") (lit "WORLD!")
          (init (lit "HELLO")))).frame = lastEnd (schedule drawsHalf (lit "HELLO") (lit "WORLD!") (init (lit "HELLO"))) ∧
      (ticks drawsHalf g (setText drawsHalf (lit "HELLO") (lit "WORLD!")
          (init (lit "HELLO")))).pending = [] ∧
      (ticks drawsHalf g (setText drawsHalf (lit "HELLO") (lit "WORLD!")
          (init (lit "HELLO")))).writes = (init (lit "HELLO")).writes + lastEnd (schedule drawsHalf (lit "HELLO") (lit "WORLD!") (init (lit "HELLO"))) + 1)) :=
  ⟨Reachable.start _,
    completion_exactly_once drawsHalf (init (lit "HELLO")) (Reachable.start _)
      (lit "HELLO") (lit "WORLD!")⟩

/-- C7 (monotonic settling): in an uninterrupted transition begun in a
reachable state, if position `i` has `end ≤ f` and `f ≤ g`, then the piece
written for position `i` by the run of `update` at frame `g` (and held
afterwards) is its `to` character `newText[i]` or the empty string, which is
never a dud span. -/
theorem monotonic_settling (rng : Nat → ℚ) (s0 : State) (h0 : Reachable rng s0)
    (oldText newText : JsString) (i : Nat) (it : Item)
    (hi : (schedule rng oldText newText s0)[i]? = some it)
    (f g : Nat) (hfg : f ≤ g) (hf : it.end_ ≤ (f : Int)) :
    (ticks rng g (setText rng oldText newText s0)).pieces[i]? = some it.to_ ∧
    it.to_ = charOrEmpty newText i ∧
    ∀ c, it.to_ ≠ dud c := by
  have hto := (schedule_at rng oldText newText s0 i it hi).2.2
  refine ⟨?_, hto, ?_⟩
  · by_cases hlt : g < lastEnd (schedule rng oldText newText s0)
    · have hr := (setText_course rng s0 h0.inv oldText newText g).1 hlt
      exact hr.wrote.settled i it hi (by omega)
    · have hfin := (setText_course rng s0 h0.inv oldText newText g).2 (by omega)
      rw [hfin.pieces, List.getElem?_map]
      show Option.map Item.to_ (schedule rng oldText newText s0)[i]? = some it.to_
      rw [hi]
      rfl
  · intro c
    rw [hto]
    exact charOrEmpty_ne_dud newText i c

/-- C8 (empty start state): `setText("")` on an element whose text is empty
builds a schedule of length 0, writes the empty string, calls the resolver of
the promise it returns during the call, and requests no animation frame: no
handle is issued and nothing is added to the pending callbacks. -/
theorem empty_start (rng : Nat → ℚ) (s0 : State) :
    schedule rng [] [] s0 = [] ∧
    (setText rng [] [] s0).queue = [] ∧
    (setText rng [] [] s0).innerHTML = [] ∧
    (setText rng [] [] s0).writes = s0.writes + 1 ∧
    (setText rng [] [] s0).resolved = s0.nextPromise :: s0.resolved ∧
    (setText rng [] [] s0).nextHandle = s0.nextHandle ∧
    (setText rng [] [] s0).frameRequest = s0.frameRequest ∧
    (setText rng [] [] s0).pending = cancelAnimationFrame s0.frameRequest s0.pending ∧
    (setText rng [] [] s0).frame = 0 := by
  simp [schedule, setText, prepare, update, buildQueue, updateLoop]

theorem monotonic_settling_witness :
    (schedule drawsHalf (lit "HELLO") (lit "WORLD!") (init (lit "HELLO")))[0]?
      = some (mkItem (lit "HELLO") (lit "WORLD!") 0 (1 / 2) (1 / 2)) ∧
    (mkItem (lit "HELLO") (lit "WORLD!") 0 (1 / 2) (1 / 2)).end_ ≤ ((40 : Nat) : Int) ∧
    ((ticks drawsHalf 41 (setText drawsHalf (lit "HELLO") (lit "WORLD!")
        (init (lit "HELLO")))).pieces[0]?
      = some (mkItem (lit "HELLO") (lit "WORLD!") 0 (1 / 2) (1 / 2)).to_ ∧
    (mkItem (lit "HELLO") (lit "WORLD!") 0 (1 / 2) (1 / 2)).to_
      = charOrEmpty (lit "WORLD!") 0 ∧
    ∀ c, (mkItem (lit "HELLO") (lit "WORLD!") 0 (1 / 2) (1 / 2)).to_ ≠ dud c) :=
  have hi : (schedule drawsHalf (lit "HELLO") (lit "WORLD!") (init (lit "HELLO")))[0]?
      = some (mkItem (lit "HELLO") (lit "WORLD!") 0 (1 / 2) (1 / 2)) := by
    simp [schedule, prepare, buildQueue, drawsHalf, lit, TextScramble.init]
  have he : (mkItem (lit "HELLO") (lit "WORLD!") 0 (1 / 2) (1 / 2)).end_
      ≤ ((40 : Nat) : Int) := by
    norm_num [mkItem, draw40]
  ⟨hi, he,
    monotonic_settling drawsHalf (init (lit "HELLO")) (Reachable.start _)
      (lit "HELLO") (lit "WORLD!") 0 (mkItem (lit "HELLO") (lit "WORLD!") 0 (1 / 2) (1 / 2))
      hi 40 41 (by decide) he⟩

theorem Wrote.output {rng : Nat → ℚ} {q0 : List Item} {g : Nat} {s : State}
    (h : Wrote rng q0 g s) :
    s.innerHTML = s.pieces.flatten ∧ s.pieces.length = q0.length := by
  obtain ⟨q, cur, hk, _, _, hp, hh⟩ := h
  constructor
  · rw [hh, hp, updateLoop_output]
  · rw [hp, updateLoop_pieces_length]
    have := congrArg List.length hk
    simpa using this

/-- Up to the completing frame, the state after `g` animation frames is the one
left by the run of `update` at frame `g`. -/
theorem setText_wrote (rng : Nat → ℚ) (s : State) (h : Inv s) (o t : JsString) (g : Nat)
    (hg : g ≤ lastEnd (schedule rng o t s)) :
    Wrote rng (schedule rng o t s) g (ticks rng g (setText rng o t s)) ∧
    (ticks rng g (setText rng o t s)).writes = s.writes + g + 1 := by
  by_cases hlt : g < lastEnd (schedule rng o t s)
  · have hr := (setText_course rng s h o t g).1 hlt
    exact ⟨hr.wrote, hr.writes⟩
  · have he : g = lastEnd (schedule rng o t s) := by omega
    have hf := (setText_course rng s h o t g).2 (by omega)
    refine ⟨?_, ?_⟩
    · have hw : Wrote rng (schedule rng o t s) (lastEnd (schedule rng o t s))
          (ticks rng g (setText rng o t s)) := hf.wrote
      rw [← he] at hw
      exact hw
    · rw [hf.writes, he]
      rfl

/-- C3 (per-frame output rule): with every draw in `[0, 1)`, the string the run
of `update` at frame `g` writes is the in-order concatenation of one piece per
position `i < max(len(oldText), len(newText))`; the piece is `oldText[i]` (or
empty) when `g < start`, the dud span around one glyph of `chars` when
`start ≤ g < end`, and `newText[i]` (or empty) when `g ≥ end`.  Here
`s[i]?.toList` is the one-unit string at index `i` of `s`, empty when `i` is
out of range. -/
theorem per_frame_output (rng : Nat → ℚ) (hv : ValidDraws rng) (s0 : State)
    (h0 : Reachable rng s0) (oldText newText : JsString) (g : Nat)
    (hg : g ≤ lastEnd (schedule rng oldText newText s0)) :
    (ticks rng g (setText rng oldText newText s0)).writes = s0.writes + g + 1 ∧
    (ticks rng g (setText rng oldText newText s0)).innerHTML = (ticks rng g (setText rng oldText newText s0)).pieces.flatten ∧
    (ticks rng g (setText rng oldText newText s0)).pieces.length = max oldText.length newText.length ∧
    ∀ (i : Nat) (it : Item), (schedule rng oldText newText s0)[i]? = some it →
      it.from_ = oldText[i]?.toList ∧ it.to_ = newText[i]?.toList ∧
      ((g : Int) < it.start →
        (ticks rng g (setText rng oldText newText s0)).pieces[i]? = some (oldText[i]?.toList)) ∧
      (it.start ≤ (g : Int) → (g : Int) < it.end_ →
        ∃ c ∈ chars, (ticks rng g (setText rng oldText newText s0)).pieces[i]?
          = some (lit "<span class=\"dud\">" ++ [c] ++ lit "</span>")) ∧
      (it.end_ ≤ (g : Int) →
        (ticks rng g (setText rng oldText newText s0)).pieces[i]? = some (newText[i]?.toList)) := by
  obtain ⟨hw, hwr⟩ := setText_wrote rng s0 h0.inv oldText newText g hg
  refine ⟨hwr, hw.output.1, ?_, ?_⟩
  · rw [hw.output.2, schedule_length]
  · intro i it hi
    obtain ⟨_, hfrom, hto⟩ := schedule_at rng oldText newText s0 i it hi
    rw [charOrEmpty_eq] at hfrom hto
    have htime := schedule_timing_mem rng hv oldText newText s0 it (List.getElem?_mem hi)
    obtain ⟨it2, c, hk, hgl, hp⟩ := hw.piece i it hi
    simp only [Item.key, Prod.mk.injEq] at hk
    obtain ⟨k1, k2, k3, k4⟩ := hk
    refine ⟨hfrom, hto, ?_, ?_, ?_⟩
    · intro hlt
      rw [hp, updateItem_before rng g it2 c (by rw [k4]; omega) (by rw [k3]; omega),
        k1, hfrom]
    · intro hs he
      have h1 : ¬ it2.end_ ≤ (g : Int) := by rw [k4]; omega
      have h2 : it2.start ≤ (g : Int) := by rw [k3]; omega
      obtain ⟨ch, hch⟩ := updateItem_glyph_some rng hv g it2 c h1 h2
      refine ⟨ch, updateItem_glyph rng hv g it2 c (hgl hv) ch hch, ?_⟩
      rw [hp, updateItem_scrambling rng g it2 c h1 h2, hch]
      rfl
    · intro he
      rw [hp, updateItem_settled rng g it2 c (by rw [k4]; omega), k2, hto]

theorem per_frame_output_witness :
    ValidDraws drawsHalf ∧ Reachable drawsHalf (init (lit "HELLO")) ∧
    20 ≤ lastEnd (schedule drawsHalf (lit "HELLO") (lit "WORLD!") (init (lit "HELLO"))) ∧
    ((ticks drawsHalf 20 (setText drawsHalf (lit "HELLO") (lit "WORLD!")
        (init (lit "HELLO")))).writes = (init (lit "HELLO")).writes + 20 + 1 ∧
    (ticks drawsHalf 20 (setText drawsHalf (lit "HELLO") (lit "WORLD!")
        (init (lit "HELLO")))).innerHTML = (ticks drawsHalf 20 (setText drawsHalf (lit "HELLO") (lit "WORLD!")
        (init (lit "HELLO")))).pieces.flatten ∧
    (ticks drawsHalf 20 (setText drawsHalf (lit "HELLO") (lit "WORLD!")
        (init (lit "HELLO")))).pieces.length = max (lit "HELLO").length (lit "WORLD!").length ∧
    ∀ (i : Nat) (it : Item), (schedule drawsHalf (lit "HELLO") (lit "WORLD!") (init (lit "HELLO")))[i]? = some it →
      it.from_ = (lit "HELLO")[i]?.toList ∧ it.to_ = (lit "WORLD!")[i]?.toList ∧
      (((20 : Nat) : Int) < it.start →
        (ticks drawsHalf 20 (setText drawsHalf (lit "HELLO") (lit "WORLD!")
        (init (lit "HELLO")))).pieces[i]? = some ((lit "HELLO")[i]?.toList)) ∧
      (it.start ≤ ((20 : Nat) : Int) → ((20 : Nat) : Int) < it.end_ →
        ∃ c ∈ chars, (ticks drawsHalf 20 (setText drawsHalf (lit "HELLO") (lit "WORLD!")
        (init (lit "HELLO")))).pieces[i]?
          = some (lit "<span class=\"dud\">" ++ [c] ++ lit "</span>")) ∧
      (it.end_ ≤ ((20 : Nat) : Int) →
        (ticks drawsHalf 20 (setText drawsHalf (lit "HELLO") (lit "WORLD!")
        (init (lit "HELLO")))).pieces[i]? = some ((lit "WORLD!")[i]?.toList))) :=
  have hle : 20 ≤ lastEnd (schedule drawsHalf (lit "HELLO") (lit "WORLD!")
      (init (lit "HELLO"))) := by
    have e : draw40 2⁻¹ = 20 := by norm_num [draw40]
    simp [schedule, prepare, buildQueue, drawsHalf, lit, TextScramble.init, lastEnd, mkItem, e]
  ⟨drawsHalf_valid, Reachable.start _, hle,
    per_frame_output drawsHalf drawsHalf_valid (init (lit "HELLO")) (Reachable.start _)
      (lit "HELLO") (lit "WORLD!") 20 hle⟩

theorem tick_cases (rng : Nat → ℚ) (s : State) (h : Inv s) :
    tick rng s = s ∨ tick rng s = update rng { s with pending := [] } := by
  rcases h.single with e | ⟨x, e1, _⟩
  · exact Or.inl (tick_idle rng s e)
  · exact Or.inr (tick_single rng s x e1)

/-- C5 (single flight): in every state reachable by any interleaving of
`setText` calls and animation frames, at most one callback is pending and its
handle is the one stored in `frameRequest`; `setText` has cancelled it when it
calls `update`, which it runs once; and an animation frame runs `update`, and
so writes the element, at most once. -/
theorem single_flight (rng : Nat → ℚ) (s : State) (h : Reachable rng s) :
    s.pending.length ≤ 1 ∧
    (∀ x ∈ s.pending, s.frameRequest = some x) ∧
    (∀ oldText newText, (prepare rng oldText newText s).pending = []) ∧
    (∀ oldText newText, (setText rng oldText newText s).writes = s.writes + 1) ∧
    (tick rng s).writes ≤ s.writes + 1 ∧
    (tick rng s).pending.length ≤ 1 := by
  have hi := h.inv
  have hlen : ∀ u : State, Inv u → u.pending.length ≤ 1 := by
    intro u hu
    rcases hu.single with e | ⟨x, e, _⟩ <;> simp [e]
  refine ⟨hlen s hi, ?_, ?_, ?_, ?_, hlen _ hi.tick⟩
  · intro x hx
    rcases hi.single with e | ⟨y, e1, e2⟩
    · simp [e] at hx
    · simp only [e1, List.mem_singleton] at hx
      rw [hx, e2]
  · intro o t
    exact prepare_pending rng o t s hi
  · intro o t
    show (update rng (prepare rng o t s)).writes = s.writes + 1
    rw [update_writes]
    rfl
  · rcases tick_cases rng s hi with e | e
    · rw [e]
      omega
    · rw [e, update_writes]

theorem sampleState_reachable : Reachable drawsHalf sampleState :=
  Reachable.frame _ (Reachable.call _ _ _ (Reachable.frame _
    (Reachable.call _ _ _ (Reachable.start []))))

theorem single_flight_witness :
    Reachable drawsHalf sampleState ∧
    (sampleState.pending.length ≤ 1 ∧
    (∀ x ∈ sampleState.pending, sampleState.frameRequest = some x) ∧
    (∀ oldText newText, (prepare drawsHalf oldText newText sampleState).pending = []) ∧
    (∀ oldText newText,
      (setText drawsHalf oldText newText sampleState).writes = sampleState.writes + 1) ∧
    (tick drawsHalf sampleState).writes ≤ sampleState.writes + 1 ∧
    (tick drawsHalf sampleState).pending.length ≤ 1) :=
  ⟨sampleState_reachable, single_flight drawsHalf sampleState sampleState_reachable⟩

theorem setText_nextPromise (rng : Nat → ℚ) (o t : JsString) (s : State) :
    (setText rng o t s).nextPromise = s.nextPromise + 1 := by
  show (update rng (prepare rng o t s)).nextPromise = _
  rw [update_nextPromise]
  rfl

theorem setText_resolved_mem (rng : Nat → ℚ) (o t : JsString) (s : State) (q : Nat)
    (h : q ∈ (setText rng o t s).resolved) : q ∈ s.resolved ∨ q = s.nextPromise := by
  rcases update_resolved_mem rng (prepare rng o t s) q h with h1 | h1
  · exact Or.inl h1
  · right
    simp only [prepare, Option.some.injEq] at h1
    exact h1.symm

theorem tick_nextPromise (rng : Nat → ℚ) (s : State) (h : Inv s) :
    (tick rng s).nextPromise = s.nextPromise := by
  rcases tick_cases rng s h with e | e
  · rw [e]
  · rw [e, update_nextPromise]

theorem tick_resolved_mem (rng : Nat → ℚ) (s : State) (h : Inv s) (q : Nat)
    (hq : q ∈ (tick rng s).resolved) : q ∈ s.resolved ∨ q + 1 = s.nextPromise := by
  rcases tick_cases rng s h with e | e
  · rw [e] at hq
    exact Or.inl hq
  · rw [e] at hq
    rcases update_resolved_mem rng _ q hq with h1 | h1
    · exact Or.inl h1
    · exact Or.inr (h.held q h1)

theorem Steps.after (rng : Nat → ℚ) (s : State) (o t : JsString) (hs : Inv s) (u : State)
    (h : Steps rng (setText rng o t s) u) :
    Inv u ∧ s.nextPromise < u.nextPromise ∧
      ∀ q ∈ u.resolved, q ∈ s.resolved ∨ s.nextPromise ≤ q := by
  induction h with
  | here =>
    refine ⟨hs.setText o t, ?_, ?_⟩
    · rw [setText_nextPromise]
      omega
    · intro q hq
      rcases setText_resolved_mem rng o t s q hq with h1 | h1
      · exact Or.inl h1
      · exact Or.inr (by omega)
  | call u o2 t2 _ ih =>
    obtain ⟨i1, i2, i3⟩ := ih
    refine ⟨i1.setText o2 t2, ?_, ?_⟩
    · rw [setText_nextPromise]
      omega
    · intro q hq
      rcases setText_resolved_mem rng o2 t2 u q hq with h1 | h1
      · exact i3 q h1
      · exact Or.inr (by omega)
  | frame u _ ih =>
    obtain ⟨i1, i2, i3⟩ := ih
    refine ⟨i1.tick, ?_, ?_⟩
    · rw [tick_nextPromise rng u i1]
      exact i2
    · intro q hq
      rcases tick_resolved_mem rng u i1 q hq with h1 | h1
      · exact i3 q h1
      · exact Or.inr (by omega)

/-- C9 (abandonment on restart): let `setText` be called in a reachable state
whose current promise `p` is not resolved.  In every execution that follows,
the resolver of `p` is never called; every resolver called belongs to that
second call or a later one; an animation frame calls no resolver but that of
the most recent `setText`, and a `setText` call none but its own. -/
theorem abandonment_on_restart (rng : Nat → ℚ) (s : State) (h : Reachable rng s)
    (p : Nat) (hp : s.resolve = some p) (hn : p ∉ s.resolved)
    (oldText newText : JsString) (u : State)
    (hu : Steps rng (setText rng oldText newText s) u) :
    p ∉ u.resolved ∧
    (∀ q ∈ u.resolved, q ∈ s.resolved ∨ s.nextPromise ≤ q) ∧
    (∀ q ∈ (tick rng u).resolved, q ∈ u.resolved ∨ q + 1 = u.nextPromise) ∧
    (∀ o t, ∀ q ∈ (setText rng o t u).resolved, q ∈ u.resolved ∨ q = u.nextPromise) := by
  obtain ⟨i1, _, i3⟩ := Steps.after rng s oldText newText h.inv u hu
  refine ⟨?_, i3, ?_, ?_⟩
  · intro hmem
    rcases i3 p hmem with h1 | h1
    · exact hn h1
    · have := h.inv.held p hp
      omega
  · intro q hq
    exact tick_resolved_mem rng u i1 q hq
  · intro o t q hq
    exact setText_resolved_mem rng o t u q hq

theorem draw40_zero : draw40 0 = 0 := by norm_num [draw40]

theorem draw40_half : draw40 2⁻¹ = 20 := by norm_num [draw40]

theorem randomChar_zero : randomChar 0 = some 33 := by
  simp only [randomChar, zero_mul, Int.floor_zero, le_refl, if_true]
  decide

theorem firstCall_pending : firstCall.resolve = some 0 ∧ 0 ∉ firstCall.resolved := by
  have hlt : 0 < lastEnd (schedule drawsHalf [] (lit "HELLO") (init [])) := by
    simp [schedule, prepare, buildQueue, drawsHalf, lit, TextScramble.init, lastEnd, mkItem,
      draw40_half]
  have hr := (setText_course drawsHalf (init []) (Inv.init []) [] (lit "HELLO") 0).1 hlt
  constructor
  · exact hr.resolve
  · have e : firstCall.resolved = [] := hr.resolved
    rw [e]
    exact List.not_mem_nil 0

theorem abandonment_on_restart_witness :
    Reachable drawsHalf firstCall ∧ firstCall.resolve = some 0 ∧ 0 ∉ firstCall.resolved ∧
    Steps drawsHalf (setText drawsHalf (lit "HELLO") (lit "WORLD!") firstCall)
      (tick drawsHalf (setText drawsHalf (lit "HELLO") (lit "WORLD!") firstCall)) ∧
    (0 ∉ (tick drawsHalf (setText drawsHalf (lit "HELLO") (lit "WORLD!") firstCall)).resolved ∧
    (∀ q ∈ (tick drawsHalf (setText drawsHalf (lit "HELLO") (lit "WORLD!") firstCall)).resolved,
      q ∈ firstCall.resolved ∨ firstCall.nextPromise ≤ q) ∧
    (∀ q ∈ (tick drawsHalf (tick drawsHalf
        (setText drawsHalf (lit "HELLO") (lit "WORLD!") firstCall))).resolved,
      q ∈ (tick drawsHalf (setText drawsHalf (lit "HELLO") (lit "WORLD!") firstCall)).resolved ∨
      q + 1 = (tick drawsHalf
        (setText drawsHalf (lit "HELLO") (lit "WORLD!") firstCall)).nextPromise) ∧
    (∀ o t, ∀ q ∈ (setText drawsHalf o t (tick drawsHalf
        (setText drawsHalf (lit "HELLO") (lit "WORLD!") firstCall))).resolved,
      q ∈ (tick drawsHalf (setText drawsHalf (lit "HELLO") (lit "WORLD!") firstCall)).resolved ∨
      q = (tick drawsHalf
        (setText drawsHalf (lit "HELLO") (lit "WORLD!") firstCall)).nextPromise)) :=
  ⟨Reachable.call _ _ _ (Reachable.start []), firstCall_pending.1, firstCall_pending.2,
    Steps.frame _ Steps.here,
    abandonment_on_restart drawsHalf firstCall (Reachable.call _ _ _ (Reachable.start []))
      0 firstCall_pending.1 firstCall_pending.2 (lit "HELLO") (lit "WORLD!") _
      (Steps.frame _ Steps.here)⟩

theorem drawsScramble_valid : ValidDraws drawsScramble := by
  intro n
  simp only [drawsScramble]
  split <;> constructor <;> norm_num

/-- C10, as stated, fails: for `"S" -> "S"` with the draws `0, 1/2, 0, ...` the
schedule is `start = 0`, `end = 20`; the run of `update` at frame 0 writes the
dud span around `!`, the run at frame 20 writes `S`. -/
theorem same_text_not_stable :
    ValidDraws drawsScramble ∧
    (setText drawsScramble (lit "S") (lit "S") (init (lit "S"))).innerHTML
      = lit "<span class=\"dud\">!</span>" ∧
    (ticks drawsScramble 20 (setText drawsScramble (lit "S") (lit "S")
      (init (lit "S")))).innerHTML = lit "S" ∧
    (ticks drawsScramble 0 (setText drawsScramble (lit "S") (lit "S")
      (init (lit "S")))).innerHTML ≠
    (ticks drawsScramble 20 (setText drawsScramble (lit "S") (lit "S")
      (init (lit "S")))).innerHTML := by
  have h1 : (setText drawsScramble (lit "S") (lit "S") (init (lit "S"))).innerHTML
      = lit "<span class=\"dud\">!</span>" := by
    simp [setText, prepare, update, buildQueue, updateLoop, updateItem, mkItem, drawsScramble,
      TextScramble.init, draw40_zero, draw40_half, randomChar_zero, charOrEmpty, dud, lit]
  have hle : lastEnd (schedule drawsScramble (lit "S") (lit "S") (init (lit "S"))) ≤ 20 := by
    simp [schedule, prepare, buildQueue, mkItem, drawsScramble, lastEnd,
      TextScramble.init, draw40_zero, draw40_half, lit]
  have hf := (setText_course drawsScramble (init (lit "S")) (Inv.init _)
    (lit "S") (lit "S") 20).2 hle
  have h2 : (ticks drawsScramble 20 (setText drawsScramble (lit "S") (lit "S")
      (init (lit "S")))).innerHTML = lit "S" := by
    rw [hf.html]
    exact schedule_to drawsScramble (lit "S") (lit "S") (init (lit "S"))
  refine ⟨drawsScramble_valid, h1, h2, ?_⟩
  rw [h2]
  show (setText drawsScramble (lit "S") (lit "S") (init (lit "S"))).innerHTML ≠ lit "S"
  rw [h1]
  decide

theorem updateItem_piece_cases (rng : Nat → ℚ) (f : Nat) (it : Item) (cur : Nat) :
    (updateItem rng f it cur).piece = it.to_ ∨ (updateItem rng f it cur).piece = it.from_ ∨
      ∃ c, (updateItem rng f it cur).piece = dud c := by
  by_cases h1 : it.end_ ≤ (f : Int)
  · left
    rw [updateItem_settled rng f it cur h1]
  · by_cases h2 : it.start ≤ (f : Int)
    · right
      right
      exact ⟨_, updateItem_scrambling rng f it cur h1 h2⟩
    · right
      left
      exact updateItem_before rng f it cur h1 h2

theorem flatten_length_ge (l : List JsString) (h : ∀ x ∈ l, 1 ≤ x.length) :
    l.length ≤ l.flatten.length := by
  induction l with
  | nil => simp
  | cons a t ih =>
    have ha := h a (List.mem_cons_self _ _)
    have ht := ih (fun x hx => h x (List.mem_cons_of_mem _ hx))
    simp only [List.flatten_cons, List.length_append, List.length_cons]
    omega

theorem flatten_length_gt (l : List JsString) (h : ∀ x ∈ l, 1 ≤ x.length)
    (hbig : ∃ x ∈ l, 26 ≤ x.length) : l.length < l.flatten.length := by
  induction l with
  | nil =>
    obtain ⟨x, hx, _⟩ := hbig
    simp at hx
  | cons a t ih =>
    have ha := h a (List.mem_cons_self _ _)
    have ht : ∀ x ∈ t, 1 ≤ x.length := fun x hx => h x (List.mem_cons_of_mem _ hx)
    simp only [List.flatten_cons, List.length_append, List.length_cons]
    obtain ⟨x, hx, hx26⟩ := hbig
    rcases List.mem_cons.mp hx with e | e
    · subst e
      have := flatten_length_ge t ht
      omega
    · have := ih ht ⟨x, e, hx26⟩
      omega

/-- C10, amended (same-text transition): with every draw in `[0, 1)` and
`oldText = newText = text`, every position has `from = to`; at every frame a
position outside its scramble window (`g < start` or `g ≥ end`) is written
as `text[i]`, and a position inside it (`start ≤ g < end`) is written as the
dud span around one glyph of `chars`; so the string written at frame `g` is
`text` exactly when no position is inside its window at `g`; and the final
output is `text`. -/
theorem same_text_transition (rng : Nat → ℚ) (hv : ValidDraws rng) (s0 : State)
    (h0 : Reachable rng s0) (text : JsString) :
    (∀ it ∈ schedule rng text text s0, it.from_ = it.to_) ∧
    (∀ (g i : Nat) (it : Item), (schedule rng text text s0)[i]? = some it →
      ((g : Int) < it.start ∨ it.end_ ≤ (g : Int)) →
      (ticks rng g (setText rng text text s0)).pieces[i]? = some (text[i]?.toList)) ∧
    (∀ (g i : Nat) (it : Item), (schedule rng text text s0)[i]? = some it →
      it.start ≤ (g : Int) → (g : Int) < it.end_ →
      ∃ c ∈ chars, (ticks rng g (setText rng text text s0)).pieces[i]?
        = some (lit "<span class=\"dud\">" ++ [c] ++ lit "</span>")) ∧
    (∀ g : Nat,
      (ticks rng g (setText rng text text s0)).innerHTML = text ↔
      ∀ it ∈ schedule rng text text s0, (g : Int) < it.start ∨ it.end_ ≤ (g : Int)) ∧
    (∀ g, lastEnd (schedule rng text text s0) ≤ g →
      (ticks rng g (setText rng text text s0)).innerHTML = text) := by
  have hpiece : ∀ (g i : Nat) (it : Item), (schedule rng text text s0)[i]? = some it →
      ((g : Int) < it.start ∨ it.end_ ≤ (g : Int)) →
      (ticks rng g (setText rng text text s0)).pieces[i]? = some (text[i]?.toList) := by
    intro g i it hi hout
    obtain ⟨_, hfrom, hto⟩ := schedule_at rng text text s0 i it hi
    rw [charOrEmpty_eq] at hfrom hto
    have htime := schedule_timing_mem rng hv text text s0 it (List.getElem?_mem hi)
    by_cases hlt : g < lastEnd (schedule rng text text s0)
    · have hr := (setText_course rng s0 h0.inv text text g).1 hlt
      obtain ⟨it2, c, hk, _, hp⟩ := hr.wrote.piece i it hi
      simp only [Item.key, Prod.mk.injEq] at hk
      obtain ⟨k1, k2, k3, k4⟩ := hk
      rcases hout with hb | he
      · rw [hp, updateItem_before rng g it2 c (by rw [k4]; omega) (by rw [k3]; omega),
          k1, hfrom]
      · rw [hp, updateItem_settled rng g it2 c (by rw [k4]; omega), k2, hto]
    · have hfin := (setText_course rng s0 h0.inv text text g).2 (by omega)
      rw [hfin.pieces, List.getElem?_map]
      show Option.map Item.to_ (schedule rng text text s0)[i]? = some (text[i]?.toList)
      rw [hi, ← hto]
      rfl
  have hdud : ∀ (g i : Nat) (it : Item), (schedule rng text text s0)[i]? = some it →
      it.start ≤ (g : Int) → (g : Int) < it.end_ →
      ∃ c ∈ chars, (ticks rng g (setText rng text text s0)).pieces[i]?
        = some (lit "<span class=\"dud\">" ++ [c] ++ lit "</span>") := by
    intro g i it hi hs he
    have hlt : g < lastEnd (schedule rng text text s0) := by
      by_contra hc
      have := (lastEnd_le_iff _ g).mp (by omega) it (List.getElem?_mem hi)
      omega
    have hr := (setText_course rng s0 h0.inv text text g).1 hlt
    obtain ⟨it2, c, hk, hgl, hp⟩ := hr.wrote.piece i it hi
    simp only [Item.key, Prod.mk.injEq] at hk
    obtain ⟨_, _, k3, k4⟩ := hk
    have h1 : ¬ it2.end_ ≤ (g : Int) := by rw [k4]; omega
    have h2 : it2.start ≤ (g : Int) := by rw [k3]; omega
    obtain ⟨ch, hch⟩ := updateItem_glyph_some rng hv g it2 c h1 h2
    refine ⟨ch, updateItem_glyph rng hv g it2 c (hgl hv) ch hch, ?_⟩
    rw [hp, updateItem_scrambling rng g it2 c h1 h2, hch]
    rfl
  have hfinal : ∀ g, lastEnd (schedule rng text text s0) ≤ g →
      (ticks rng g (setText rng text text s0)).innerHTML = text := by
    intro g hg
    have hfin := (setText_course rng s0 h0.inv text text g).2 hg
    rw [hfin.html]
    exact schedule_to rng text text s0
  have hsame : ∀ g : Nat,
      (∀ it ∈ schedule rng text text s0, (g : Int) < it.start ∨ it.end_ ≤ (g : Int)) →
      (ticks rng g (setText rng text text s0)).innerHTML = text := by
    intro g hall
    by_cases hlt : g ≤ lastEnd (schedule rng text text s0)
    · obtain ⟨hw, _⟩ := setText_wrote rng s0 h0.inv text text g hlt
      have hp : (ticks rng g (setText rng text text s0)).pieces
          = (schedule rng text text s0).map Item.to_ := by
        apply List.ext_getElem?
        intro i
        rw [List.getElem?_map]
        cases hi : (schedule rng text text s0)[i]? with
        | none =>
          have hlen : (schedule rng text text s0).length ≤ i := by
            by_contra hc
            rw [List.getElem?_eq_getElem (by omega)] at hi
            exact Option.noConfusion hi
          rw [List.getElem?_eq_none (by rw [hw.output.2]; exact hlen)]
          rfl
        | some it =>
          rw [hpiece g i it hi (hall it (List.getElem?_mem hi)), ← charOrEmpty_eq,
            ← (schedule_at rng text text s0 i it hi).2.2]
          rfl
      rw [hw.output.1, hp]
      exact schedule_to rng text text s0
    · exact hfinal g (by omega)
  have hdiffer : ∀ (g : Nat) (it : Item), it ∈ schedule rng text text s0 →
      it.start ≤ (g : Int) → (g : Int) < it.end_ →
      (ticks rng g (setText rng text text s0)).innerHTML ≠ text := by
    intro g it hit hs he
    have hlt : g ≤ lastEnd (schedule rng text text s0) := by
      by_contra hc
      have := (lastEnd_le_iff _ g).mp (by omega) it hit
      omega
    obtain ⟨hw, _⟩ := setText_wrote rng s0 h0.inv text text g hlt
    have hlen : (ticks rng g (setText rng text text s0)).pieces.length = text.length := by
      rw [hw.output.2, schedule_length, max_self]
    have hpos : ∀ x ∈ (ticks rng g (setText rng text text s0)).pieces, 1 ≤ x.length := by
      intro x hx
      obtain ⟨i, hix⟩ := List.mem_iff_getElem?.mp hx
      have hi_lt : i < text.length := by
        by_contra hc
        rw [List.getElem?_eq_none (by omega)] at hix
        exact Option.noConfusion hix
      have hsl : i < (schedule rng text text s0).length := by
        rw [schedule_length, max_self]
        exact hi_lt
      have hi := List.getElem?_eq_getElem hsl
      obtain ⟨_, hfrom, hto⟩ := schedule_at rng text text s0 i _ hi
      rw [charOrEmpty_eq, List.getElem?_eq_getElem hi_lt] at hfrom hto
      obtain ⟨it2, c, hk, _, hp⟩ := hw.piece i _ hi
      simp only [Item.key, Prod.mk.injEq] at hk
      obtain ⟨k1, k2, _, _⟩ := hk
      rw [hp, Option.some.injEq] at hix
      rcases updateItem_piece_cases rng g it2 c with e | e | ⟨d, e⟩
      · rw [← hix, e, k2, hto]
        simp
      · rw [← hix, e, k1, hfrom]
        simp
      · rw [← hix, e]
        have := dud_length d
        omega
    have hbig : ∃ x ∈ (ticks rng g (setText rng text text s0)).pieces, 26 ≤ x.length := by
      obtain ⟨i, hi⟩ := List.mem_iff_getElem?.mp hit
      obtain ⟨c, _, hc⟩ := hdud g i it hi hs he
      exact ⟨_, List.getElem?_mem hc, dud_length (some c)⟩
    have hgt := flatten_length_gt _ hpos hbig
    intro heq
    rw [hw.output.1] at heq
    rw [heq, hlen] at hgt
    omega
  refine ⟨?_, hpiece, hdud, ?_, hfinal⟩
  · intro it hit
    obtain ⟨i, hi⟩ := List.mem_iff_getElem?.mp hit
    obtain ⟨_, hfrom, hto⟩ := schedule_at rng text text s0 i it hi
    rw [hfrom, hto]
  · intro g
    constructor
    · intro heq it hit
      by_contra hc
      exact hdiffer g it hit (by omega) (by omega) heq
    · exact hsame g

theorem same_text_transition_witness :
    ValidDraws drawsHalf ∧ Reachable drawsHalf (init (lit "SAME")) ∧
    ((∀ it ∈ schedule drawsHalf (lit "SAME") (lit "SAME") (init (lit "SAME")),
      it.from_ = it.to_) ∧
    (∀ (g i : Nat) (it : Item),
      (schedule drawsHalf (lit "SAME") (lit "SAME") (init (lit "SAME")))[i]? = some it →
      ((g : Int) < it.start ∨ it.end_ ≤ (g : Int)) →
      (ticks drawsHalf g (setText drawsHalf (lit "SAME") (lit "SAME")
        (init (lit "SAME")))).pieces[i]? = some ((lit "SAME")[i]?.toList)) ∧
    (∀ (g i : Nat) (it : Item),
      (schedule drawsHalf (lit "SAME") (lit "SAME") (init (lit "SAME")))[i]? = some it →
      it.start ≤ (g : Int) → (g : Int) < it.end_ →
      ∃ c ∈ chars, (ticks drawsHalf g (setText drawsHalf (lit "SAME") (lit "SAME")
        (init (lit "SAME")))).pieces[i]?
        = some (lit "<span class=\"dud\">" ++ [c] ++ lit "</span>")) ∧
    (∀ g : Nat,
      (ticks drawsHalf g (setText drawsHalf (lit "SAME") (lit "SAME")
        (init (lit "SAME")))).innerHTML = lit "SAME" ↔
      ∀ it ∈ schedule drawsHalf (lit "SAME") (lit "SAME") (init (lit "SAME")),
        (g : Int) < it.start ∨ it.end_ ≤ (g : Int)) ∧
    (∀ g, lastEnd (schedule drawsHalf (lit "SAME") (lit "SAME") (init (lit "SAME"))) ≤ g →
      (ticks drawsHalf g (setText drawsHalf (lit "SAME") (lit "SAME")
        (init (lit "SAME")))).innerHTML = lit "SAME")) :=
  ⟨drawsHalf_valid, Reachable.start _,
    same_text_transition drawsHalf drawsHalf_valid (init (lit "SAME")) (Reachable.start _)
      (lit "SAME")⟩

end TextScramble
